import Mathlib

/-!
Verification of the object-store client subsystem of the storage-utils
repository.  The repository ships its integration test suite
(storage_utils/tests/test_integration.py); the client implementation
(the swift module) is not part of the shipped sources, so every
definition below is a shallow model built from the specification's
component contracts (sections 3, 4, 6 of the spec), with the
integration tests fixing the observable constants (naming conventions,
call counts) wherever they speak.
-/

/-- Modelled from the spec: the error taxonomy surfaced to callers by the
missing swift client module (section 7): AuthenticationError,
NotFoundError, ConditionNotMetError. -/
inductive StorError where
  | authenticationError
  | notFoundError
  | conditionNotMetError
deriving DecidableEq, Repr

/-- Outcome of a retried operation in the Retry Engine: success with a
result list, or condition-retry exhaustion carrying the last observed
result (spec section 4.2). -/
inductive RetryOutcome (α : Type) where
  | ok (result : List α)
  | conditionNotMetError (lastResult : List α)
deriving DecidableEq, Repr

/-- Modelled from the spec: the Retry Engine's condition loop from the
missing swift module (section 4.2).  `fetch i` is the listing observed on
attempt `i`; if the caller condition holds the result is returned, else
the engine sleeps once (the injected delay primitive, counted in the
first component) and retries, up to `retriesLeft` further attempts;
exhaustion yields ConditionNotMetError carrying the last observed
result. -/
def retryCond {α : Type} (fetch : Nat → List α) (cond : List α → Bool) :
    Nat → Nat → Nat × RetryOutcome α
  | retriesLeft, attempt =>
    let res := fetch attempt
    if cond res then (0, .ok res)
    else
      match retriesLeft with
      | 0 => (0, .conditionNotMetError res)
      | n + 1 =>
          let r := retryCond fetch cond n (attempt + 1)
          (r.1 + 1, r.2)

/-- Association-list lookup (first binding wins), used for both the
container directory of the store and the objects of one container. -/
def alookup {β : Type} : List (String × β) → String → Option β
  | [], _ => none
  | (k, v) :: rest, key => if k = key then some v else alookup rest key

/-- Association-list update: overwrite the first binding of the key, or
append a fresh binding at the end. -/
def aset {β : Type} : List (String × β) → String → β → List (String × β)
  | [], key, v => [(key, v)]
  | (k, w) :: rest, key, v =>
      if k = key then (key, v) :: rest else (k, w) :: aset rest key v

/-- Association-list removal of every binding of a key. -/
def aremove {β : Type} (l : List (String × β)) (key : String) : List (String × β) :=
  l.filter (fun e => !(e.1 == key))

/-- The keys of an association list, in storage order. -/
def akeys {β : Type} (l : List (String × β)) : List String :=
  l.map Prod.fst

/-- Object bodies are byte strings, modelled as lists of naturals. -/
abbrev Bytes := List Nat

/-- Modelled from the spec: the three kinds of object the missing swift
module writes — a plain object holding bytes, a static-large-object
manifest whose metadata references a segment container and prefix
(section 4.3), and a DataManifest whose plain-text body is one relative
path per line, modelled as the list of those lines (sections 3, 6). -/
inductive ObjData where
  | plain (data : Bytes)
  | slo (segContainer : String) (segDir : String)
  | datamanifest (paths : List String)
deriving DecidableEq, Repr

/-- The objects of one container: key/value bindings in insertion order. -/
abbrev ObjList := List (String × ObjData)

/-- Modelled from the spec: one tenant's view of the object store — a
directory of named containers, each holding named objects (section 3). -/
structure ObjStore where
  containers : List (String × ObjList)
deriving DecidableEq, Repr

/-- The store with no containers. -/
def emptyStore : ObjStore := ⟨[]⟩

/-- Look up a container by name. -/
def getContainer (st : ObjStore) (c : String) : Option ObjList :=
  alookup st.containers c

/-- Replace (or create) a container wholesale. -/
def setContainer (st : ObjStore) (c : String) (objs : ObjList) : ObjStore :=
  ⟨aset st.containers c objs⟩

/-- Modelled from the spec: writing one object, creating its container
on demand; overwriting an existing key replaces its body (section 4.3
overwrite-on-retry semantics). -/
def putObject (st : ObjStore) (c k : String) (v : ObjData) : ObjStore :=
  setContainer st c (aset ((getContainer st c).getD []) k v)

/-- Write a batch of objects into one container, in list order. -/
def putObjects (st : ObjStore) (c : String) (pairs : ObjList) : ObjStore :=
  pairs.foldl (fun acc e => putObject acc c e.1 e.2) st

/-- Fetch one object's body. -/
def getObject (st : ObjStore) (c k : String) : Option ObjData :=
  (getContainer st c).bind (fun objs => alookup objs k)

/-- Delete one object (a no-op when the container is missing). -/
def delObject (st : ObjStore) (c k : String) : ObjStore :=
  match getContainer st c with
  | none => st
  | some objs => setContainer st c (aremove objs k)

/-- Delete a container wholesale. -/
def delContainer (st : ObjStore) (c : String) : ObjStore :=
  ⟨aremove st.containers c⟩

/-- Boolean string-prefix test on the underlying character data. -/
def strHasPfx (p s : String) : Bool :=
  p.data.isPrefixOf s.data

/-- All object keys of a container (empty when the container is missing). -/
def allKeys (st : ObjStore) (c : String) : List String :=
  akeys ((getContainer st c).getD [])

/-- Modelled from the spec: listing the objects under a prefix inside a
container — the keys having the prefix plus the path separator as a
string prefix, i.e. the keys lying strictly below the prefix in the
virtual directory tree (sections 4.4, 4.5). -/
def listKeysUnder (st : ObjStore) (c pfx : String) : List String :=
  (allKeys st c).filter (fun k => strHasPfx (pfx ++ "/") k)

/-- Modelled from the spec: listing a container raises NotFoundError when
the container does not exist (section 7), else returns its keys. -/
def listContainer (st : ObjStore) (c : String) : Except StorError (List String) :=
  match getContainer st c with
  | none => .error .notFoundError
  | some objs => .ok (akeys objs)

/-- Modelled from the spec and the integration test
(test_static_large_obj_copy_and_segment_container): the hidden segment
container of container `c` is named by prepending the marker
`.segments_` to the container name. -/
def segmentContainerName (c : String) : String :=
  ".segments_" ++ c

/-- Modelled from the spec: a container is a segment container when its
name matches the hidden-segment-container naming convention, i.e. starts
with the `.segments_` marker (section 4.5). -/
def isSegmentContainer (name : String) : Bool :=
  strHasPfx ".segments_" name

/-- Modelled from the spec: listing a tenant root returns the container
names, excluding segment containers unless the caller passes
`ignore_segment_containers = False` (section 4.5).  The boolean argument
is the effective `ignore_segment_containers` value (`true` by
default). -/
def listTenantRoot (st : ObjStore) (ignoreSegmentContainers : Bool) : List String :=
  if ignoreSegmentContainers then
    (akeys st.containers).filter (fun n => !(isSegmentContainer n))
  else akeys st.containers

/-- Modelled from the spec: segment object names are the logical object
name followed by the 0-based segment index (sections 4.3, 6). -/
def segmentObjectName (obj : String) (i : Nat) : String :=
  obj ++ "/" ++ Nat.repr i

/-- Split a byte string into consecutive chunks of `S` bytes (the last
chunk may be shorter); chunk size 1 is used when `S = 0`. -/
def chunksOf (S : Nat) : Bytes → List Bytes
  | [] => []
  | x :: xs => (x :: xs.take (S - 1)) :: chunksOf S (xs.drop (S - 1))
termination_by l => l.length
decreasing_by simp only [List.length_drop, List.length_cons]; omega

/-- The segment objects of a segmented upload: the i-th chunk stored
under the i-th segment object name, in increasing index order. -/
def segmentPairs (obj : String) (segs : List Bytes) : ObjList :=
  segs.enum.map (fun e => (segmentObjectName obj e.1, ObjData.plain e.2))

/-- Modelled from the spec: the Segmented Upload Engine of the missing
swift module (section 4.3).  A payload of at most `segment_size` bytes
is uploaded as a single plain object; a larger payload is split into
segments uploaded into the hidden segment container in increasing index
order, followed by a manifest object at the logical path referencing
the segment container and prefix. -/
def upload_large (st : ObjStore) (c obj : String) (data : Bytes) (S : Nat) : ObjStore :=
  if data.length ≤ S then putObject st c obj (.plain data)
  else
    let segc := segmentContainerName c
    let st1 := putObjects st segc (segmentPairs obj (chunksOf S data))
    putObject st1 c obj (.slo segc obj)

/-- The number of objects stored in the hidden segment container of
container `c`. -/
def segmentObjectCount (st : ObjStore) (c : String) : Nat :=
  ((getContainer st (segmentContainerName c)).getD []).length

/-- Modelled from the spec: reading a logical path transparently
reassembles a static large object by concatenating the bodies of the
segment objects listed under its segment prefix, in storage order
(section 4.3). -/
def downloadLogical (st : ObjStore) (c k : String) : Option Bytes :=
  match getObject st c k with
  | some (.plain d) => some d
  | some (.slo segc pre) =>
      some (((listKeysUnder st segc pre).filterMap (fun sk =>
        match getObject st segc sk with
        | some (.plain d) => some d
        | _ => none)).flatten)
  | _ => none

/-- A member of a local directory tree: a regular file with contents, or
an empty directory (uploaded as a zero-byte marker object). -/
inductive TreeEntry where
  | file (data : Bytes)
  | emptyDir
deriving DecidableEq, Repr

/-- A local tree in upload traversal order: relative path and entry. -/
abbrev LocalTree := List (String × TreeEntry)

/-- Modelled from the spec: the fixed file name of the DataManifest
object written under an uploaded prefix (section 6). -/
def DATA_MANIFEST_FILE_NAME : String := ".manifest"

/-- The object body uploaded for one tree entry: file contents, or a
zero-byte marker for an empty directory (section 4.4). -/
def entryObj : TreeEntry → ObjData
  | .file d => .plain d
  | .emptyDir => .plain []

/-- The object key of a relative path under a remote prefix. -/
def keyUnder (pfx rel : String) : String :=
  pfx ++ "/" ++ rel

/-- The objects written by a tree upload, in traversal order. -/
def treePairs (pfx : String) (tree : LocalTree) : ObjList :=
  tree.map (fun e => (keyUnder pfx e.1, entryObj e.2))

/-- The object key of the DataManifest of a prefix. -/
def manifestKey (pfx : String) : String :=
  keyUnder pfx DATA_MANIFEST_FILE_NAME

/-- Modelled from the spec: tree upload in the missing swift module
(section 4.4) — every member is uploaded under the prefix in traversal
order; with `use_manifest`, a DataManifest enumerating every uploaded
relative path plus its own name is then written at the fixed manifest
file name under the prefix. -/
def uploadTree (st : ObjStore) (c pfx : String) (tree : LocalTree) (useManifest : Bool) :
    ObjStore :=
  let st1 := putObjects st c (treePairs pfx tree)
  if useManifest then
    putObject st1 c (manifestKey pfx)
      (.datamanifest (tree.map Prod.fst ++ [DATA_MANIFEST_FILE_NAME]))
  else st1

/-- Boolean test that two listings are equal as sets. -/
def listEq (xs ys : List String) : Bool :=
  xs.all (fun x => ys.contains x) && ys.all (fun y => xs.contains y)

/-- Modelled from the spec: manifest-verified tree download in the
missing swift module (section 4.4) — fetch the DataManifest, compute the
expected member set, list the prefix under the Retry Engine with the
condition that the listing equal the expected set, fail with
ConditionNotMetError on exhaustion, else fetch every listed member.  The
result pairs each fetched key with its body; the first component counts
backoff sleeps. -/
def downloadTree (st : ObjStore) (c pfx : String) (numRetries : Nat) :
    Nat × Except StorError (List (String × ObjData)) :=
  match getObject st c (manifestKey pfx) with
  | some (.datamanifest rels) =>
      let expected := rels.map (fun r => keyUnder pfx r)
      match retryCond (fun _ => listKeysUnder st c pfx) (fun l => listEq l expected)
          numRetries 0 with
      | (sleeps, .ok l) =>
          (sleeps, .ok (l.filterMap (fun k => (getObject st c k).map (fun d => (k, d)))))
      | (sleeps, .conditionNotMetError _) => (sleeps, .error .conditionNotMetError)
  | _ => (0, .error .notFoundError)

/-- Modelled from the spec: remove_tree (section 4.4) — a container-level
prefix deletes the container itself; a nested prefix deletes exactly the
objects listed under the prefix, keeping the container. -/
def removeTree (st : ObjStore) (c : String) (pfx : Option String) : ObjStore :=
  match pfx with
  | none => delContainer st c
  | some p =>
      match getContainer st c with
      | none => st
      | some objs => setContainer st c (objs.filter (fun e => !(strHasPfx (p ++ "/") e.1)))

/-- Whether an object exists at exactly this key. -/
def existsObject (st : ObjStore) (c k : String) : Bool :=
  (getObject st c k).isSome

/-- Modelled from the spec: isdir on an object-store path (section 4.6) —
a container path is a directory when the container exists; an object
path is a directory when at least one object is listed strictly under it
(directory markers are implicit, not required).  `none` is the container
path of `c`; `some k` is the object path with key `k`. -/
def isdir (st : ObjStore) (c : String) : Option String → Bool
  | none => (getContainer st c).isSome
  | some k => !(listKeysUnder st c k).isEmpty

/-- Modelled from the spec: the spec fixes isdir for object-store paths
but leaves isfile implicit; under the Path Facade's uniform path
semantics (section 4.6, mirroring the local backend where a file is an
existing non-directory entry), an object path is a file when an object
exists at exactly its key and the path is not a directory; a container
path is never a file. -/
def isfile (st : ObjStore) (c : String) : Option String → Bool
  | none => false
  | some k => existsObject st c k && !(isdir st c (some k))

/-- Modelled from the spec: the process-wide Auth Cache entry for one
tenant (`none` when the tenant has no entry) together with the running
count of authentication handshakes, which the spec makes observable for
testing (section 4.1).  Tokens are modelled as naturals. -/
structure AuthState where
  cache : Option Nat
  authCalls : Nat
deriving DecidableEq, Repr

/-- Modelled from the spec and test_cached_auth_and_auth_invalidation:
acquiring a usable token before a network call.  A cached token accepted
by the server costs no authentication call.  A cached token the server
rejects triggers the bounded re-auth path — one authentication attempt
made by the underlying client while retrying with the bad token, then a
clean re-authentication after the cache is invalidated — two calls in
all, bounded by the fixed design value 2 (section 4.2).  A cache miss
authenticates exactly once when the credentials are valid; invalid
credentials exhaust the two bounded attempts and yield no token, which
the caller surfaces as AuthenticationError. -/
def ensureAuthed (serverToken : Nat) (credsValid : Bool) (s : AuthState) :
    AuthState × Option Nat :=
  match s.cache with
  | some t =>
      if t = serverToken then (s, some t)
      else
        if credsValid then
          ({ cache := some serverToken, authCalls := s.authCalls + 2 }, some serverToken)
        else ({ cache := none, authCalls := s.authCalls + 2 }, none)
  | none =>
      if credsValid then
        ({ cache := some serverToken, authCalls := s.authCalls + 1 }, some serverToken)
      else ({ cache := none, authCalls := s.authCalls + 2 }, none)

/-- Modelled from the spec: one authenticated metadata operation (a
stat); it succeeds exactly when a usable token was acquired, else it
raises AuthenticationError (modelled as the `false` outcome). -/
def runStat (serverToken : Nat) (credsValid : Bool) (s : AuthState) : AuthState × Bool :=
  match ensureAuthed serverToken credsValid s with
  | (s1, some _) => (s1, true)
  | (s1, none) => (s1, false)

/-- `N` consecutive authenticated operations; the boolean records that
every one of them succeeded. -/
def runStats (serverToken : Nat) (credsValid : Bool) : Nat → AuthState → AuthState × Bool
  | 0, s => (s, true)
  | n + 1, s =>
      let r1 := runStat serverToken credsValid s
      let r2 := runStats serverToken credsValid n r1.1
      (r2.1, r1.2 && r2.2)

/-- Outcome of a full authenticated, condition-retried listing. -/
inductive RunOutcome (α : Type) where
  | ok (result : List α)
  | authenticationError
  | conditionNotMetError (lastResult : List α)
deriving DecidableEq, Repr

/-- Modelled from the spec: a condition-retried listing under the Retry
Engine (section 4.2).  Authorization failures are handled first through
the bounded re-auth path and never consume a condition retry attempt;
with a usable token the condition loop runs with its full `numRetries`
budget.  The second component counts backoff sleeps. -/
def runList (serverToken : Nat) (credsValid : Bool) (L : List Nat) (cond : List Nat → Bool)
    (numRetries : Nat) (s : AuthState) : AuthState × Nat × RunOutcome Nat :=
  match ensureAuthed serverToken credsValid s with
  | (s1, none) => (s1, 0, .authenticationError)
  | (s1, some _) =>
      match retryCond (fun _ => L) cond numRetries 0 with
      | (sleeps, .ok r) => (s1, sleeps, .ok r)
      | (sleeps, .conditionNotMetError last) => (s1, sleeps, .conditionNotMetError last)

/-! Association-list lemmas. -/

theorem alookup_aset_self {β : Type} (l : List (String × β)) (k : String) (v : β) :
    alookup (aset l k v) k = some v := by
  induction l with
  | nil => simp [aset, alookup]
  | cons e rest ih =>
      by_cases h : e.1 = k
      · simp [aset, h, alookup]
      · simp [aset, h, alookup, ih]

theorem alookup_aset_ne {β : Type} (l : List (String × β)) {k k' : String} (v : β)
    (h : k' ≠ k) : alookup (aset l k v) k' = alookup l k' := by
  induction l with
  | nil => simp [aset, alookup, Ne.symm h]
  | cons e rest ih =>
      by_cases he : e.1 = k
      · subst he
        simp [aset, alookup, Ne.symm h]
      · by_cases he' : e.1 = k'
        · simp [aset, alookup, he, he', h]
        · simp [aset, alookup, he, he', ih]

theorem alookup_none_iff {β : Type} (l : List (String × β)) (k : String) :
    alookup l k = none ↔ k ∉ akeys l := by
  induction l with
  | nil => simp [alookup, akeys]
  | cons e rest ih =>
      by_cases h : e.1 = k
      · simp [alookup, akeys, h]
      · simp [alookup, akeys, h, ih, Ne.symm h]

theorem aset_fresh {β : Type} (l : List (String × β)) (k : String) (v : β)
    (h : alookup l k = none) : aset l k v = l ++ [(k, v)] := by
  induction l with
  | nil => simp [aset]
  | cons e rest ih =>
      by_cases he : e.1 = k
      · simp [alookup, he] at h
      · simp [alookup, he] at h
        simp [aset, he, ih h]

theorem alookup_append_left_none {β : Type} (l1 l2 : List (String × β)) (k : String)
    (h : alookup l1 k = none) : alookup (l1 ++ l2) k = alookup l2 k := by
  induction l1 with
  | nil => simp
  | cons e rest ih =>
      by_cases he : e.1 = k
      · simp [alookup, he] at h
      · simp [alookup, he] at h ⊢
        exact ih h

theorem alookup_of_mem_nodup {β : Type} {l : List (String × β)} {k : String} {v : β}
    (hnd : (akeys l).Nodup) (hm : (k, v) ∈ l) : alookup l k = some v := by
  induction l with
  | nil => simp at hm
  | cons e rest ih =>
      rcases List.mem_cons.mp hm with h | h
      · subst h
        simp [alookup]
      · have hk : k ∈ akeys rest := List.mem_map.mpr ⟨(k, v), h, rfl⟩
        have hnd2 := hnd
        rw [show akeys (e :: rest) = e.1 :: akeys rest from rfl, List.nodup_cons] at hnd2
        have hne : e.1 ≠ k := by
          intro he
          apply hnd2.1
          rw [he]
          exact hk
        simp only [alookup, hne, if_false]
        exact ih hnd2.2 h

theorem alookup_filter_key {β : Type} (l : List (String × β)) (q : String → Bool)
    (k : String) :
    alookup (l.filter (fun e => q e.1)) k = if q k then alookup l k else none := by
  induction l with
  | nil => cases hq : q k <;> simp [alookup, hq]
  | cons e rest ih =>
      by_cases he : e.1 = k
      · subst he
        cases hq : q e.1
        · simp [List.filter_cons, hq, alookup, ih]
        · simp [List.filter_cons, hq, alookup, ih]
      · cases hq : q e.1
        · simp [List.filter_cons, hq, alookup, he, ih]
        · simp [List.filter_cons, hq, alookup, he, ih]

theorem akeys_filter_key {β : Type} (l : List (String × β)) (q : String → Bool) :
    akeys (l.filter (fun e => q e.1)) = (akeys l).filter q := by
  induction l with
  | nil => rfl
  | cons e rest ih =>
      show akeys (List.filter _ (e :: rest)) = List.filter q (e.1 :: akeys rest)
      cases hq : q e.1
      · simp only [List.filter_cons, hq, if_false, Bool.false_eq_true]
        rw [ih]
      · simp only [List.filter_cons, hq, if_true]
        show e.1 :: akeys (List.filter _ rest) = e.1 :: List.filter q (akeys rest)
        rw [ih]

theorem akeys_append {β : Type} (l1 l2 : List (String × β)) :
    akeys (l1 ++ l2) = akeys l1 ++ akeys l2 := by
  simp [akeys]

/-! String lemmas. -/

theorem str_append_cancel_left {a b c : String} (h : a ++ b = a ++ c) : b = c := by
  apply String.ext
  have hd : a.data ++ b.data = a.data ++ c.data := by
    have := congrArg String.data h
    simpa [String.data_append] using this
  exact List.append_cancel_left hd

theorem strHasPfx_append (a b : String) : strHasPfx a (a ++ b) = true := by
  simp only [strHasPfx, String.data_append]
  exact List.isPrefixOf_iff_prefix.mpr (List.prefix_append a.data b.data)

theorem strHasPfx_iff (p s : String) : strHasPfx p s = true ↔ ∃ t, s = p ++ t := by
  constructor
  · intro h
    simp only [strHasPfx] at h
    rcases List.isPrefixOf_iff_prefix.mp h with ⟨t, ht⟩
    refine ⟨⟨t⟩, ?_⟩
    apply String.ext
    simp [String.data_append]
    exact ht.symm
  · rintro ⟨t, rfl⟩
    exact strHasPfx_append p t

theorem keyUnder_eq (pfx rel : String) : keyUnder pfx rel = (pfx ++ "/") ++ rel := rfl

theorem keyUnder_inj {pfx r1 r2 : String} (h : keyUnder pfx r1 = keyUnder pfx r2) :
    r1 = r2 :=
  str_append_cancel_left (a := pfx ++ "/") h

theorem strHasPfx_keyUnder (pfx rel : String) :
    strHasPfx (pfx ++ "/") (keyUnder pfx rel) = true :=
  strHasPfx_append (pfx ++ "/") rel

theorem segmentObjectName_eq (obj : String) (i : Nat) :
    segmentObjectName obj i = keyUnder obj (Nat.repr i) := rfl

/-! Chunking lemmas. -/

theorem chunksOf_flatten (S : Nat) (l : Bytes) : (chunksOf S l).flatten = l := by
  induction l using chunksOf.induct S with
  | case1 => simp [chunksOf]
  | case2 x xs ih =>
      simp only [chunksOf, List.flatten_cons, ih]
      simp [List.take_append_drop]

theorem ceil_div_step (S m : Nat) (hS : 1 ≤ S) :
    (m - (S - 1) + S - 1) / S + 1 = (m + 1 + S - 1) / S := by
  rcases le_or_lt (S - 1) m with hle | hlt
  · have h1 : m - (S - 1) + S - 1 = m := by omega
    have h2 : m + 1 + S - 1 = m + S := by omega
    rw [h1, h2, Nat.add_div_right _ (by omega)]
  · have h1 : m - (S - 1) + S - 1 = S - 1 := by omega
    have h2 : m + 1 + S - 1 = m + S := by omega
    rw [h1, h2, Nat.add_div_right _ (by omega), Nat.div_eq_of_lt (by omega : S - 1 < S),
      Nat.div_eq_of_lt (by omega : m < S)]

theorem chunksOf_length (S : Nat) (hS : 1 ≤ S) (l : Bytes) :
    (chunksOf S l).length = (l.length + S - 1) / S := by
  induction l using chunksOf.induct S with
  | case1 =>
      simp only [chunksOf, List.length_nil]
      have h0 : (0 + S - 1) / S = 0 := Nat.div_eq_of_lt (by omega)
      omega
  | case2 x xs ih =>
      simp only [chunksOf, List.length_cons, ih, List.length_drop]
      exact ceil_div_step S xs.length hS

/-! Store lemmas. -/

theorem getContainer_putObject_self (st : ObjStore) (c k : String) (v : ObjData) :
    getContainer (putObject st c k v) c = some (aset ((getContainer st c).getD []) k v) :=
  alookup_aset_self st.containers c _

theorem getContainer_putObject_ne (st : ObjStore) {c c' : String} (k : String) (v : ObjData)
    (h : c' ≠ c) : getContainer (putObject st c k v) c' = getContainer st c' :=
  alookup_aset_ne st.containers _ h

theorem putObjects_cons (st : ObjStore) (c : String) (e : String × ObjData)
    (rest : ObjList) :
    putObjects st c (e :: rest) = putObjects (putObject st c e.1 e.2) c rest := rfl

theorem getContainer_putObjects_ne (pairs : ObjList) (st : ObjStore) {c c' : String}
    (h : c' ≠ c) : getContainer (putObjects st c pairs) c' = getContainer st c' := by
  induction pairs generalizing st with
  | nil => rfl
  | cons e rest ih =>
      rw [putObjects_cons, ih, getContainer_putObject_ne _ _ _ h]

theorem getContainer_putObjects_fresh (pairs : ObjList) (st : ObjStore) (c : String)
    (hnd : (akeys pairs).Nodup)
    (hfresh : ∀ k ∈ akeys pairs, alookup ((getContainer st c).getD []) k = none) :
    (getContainer (putObjects st c pairs) c).getD [] =
      (getContainer st c).getD [] ++ pairs := by
  induction pairs generalizing st with
  | nil => simp [putObjects]
  | cons e rest ih =>
      have hfreshe : alookup ((getContainer st c).getD []) e.1 = none :=
        hfresh e.1 (by simp [akeys])
      have hset : aset ((getContainer st c).getD []) e.1 e.2 =
          (getContainer st c).getD [] ++ [e] := by
        rw [aset_fresh _ _ _ hfreshe]
      have hnd2 := hnd
      rw [show akeys (e :: rest) = e.1 :: akeys rest from rfl, List.nodup_cons] at hnd2
      have hfresh2 : ∀ k ∈ akeys rest,
          alookup ((getContainer (putObject st c e.1 e.2) c).getD []) k = none := by
        intro k hk
        rw [getContainer_putObject_self, Option.getD_some, hset]
        have h1 : alookup ((getContainer st c).getD []) k = none := hfresh k (by
          rw [show akeys (e :: rest) = e.1 :: akeys rest from rfl]
          exact List.mem_cons_of_mem _ hk)
        rw [alookup_append_left_none _ _ _ h1]
        have hke : e.1 ≠ k := by
          intro hh
          apply hnd2.1
          rw [hh]
          exact hk
        simp [alookup, hke]
      rw [putObjects_cons, ih (putObject st c e.1 e.2) hnd2.2 hfresh2,
        getContainer_putObject_self, Option.getD_some, hset, List.append_assoc]
      rfl

theorem getContainer_putObjects_fresh_some (pairs : ObjList) (st : ObjStore) (c : String)
    (hnd : (akeys pairs).Nodup)
    (hfresh : ∀ k ∈ akeys pairs, alookup ((getContainer st c).getD []) k = none)
    (hne : pairs ≠ []) :
    getContainer (putObjects st c pairs) c =
      some ((getContainer st c).getD [] ++ pairs) := by
  have hd := getContainer_putObjects_fresh pairs st c hnd hfresh
  cases h : getContainer (putObjects st c pairs) c with
  | none =>
      rw [h] at hd
      simp only [Option.getD_none] at hd
      exact absurd (List.append_eq_nil.mp hd.symm).2 hne
  | some l =>
      rw [h] at hd
      simp at hd
      rw [hd]

/-! Retry Engine lemmas. -/

theorem retryCond_false_all {α : Type} (fetch : Nat → List α) (cond : List α → Bool)
    (h : ∀ i, cond (fetch i) = false) (R : Nat) :
    ∀ a, retryCond fetch cond R a = (R, .conditionNotMetError (fetch (a + R))) := by
  induction R with
  | zero => intro a; simp [retryCond, h]
  | succ n ih =>
      intro a
      have harith : a + (n + 1) = a + 1 + n := by omega
      rw [harith]
      simp [retryCond, h, ih (a + 1)]

theorem retryCond_const_false {α : Type} (L : List α) (cond : List α → Bool)
    (hc : cond L = false) (R a : Nat) :
    retryCond (fun _ => L) cond R a = (R, .conditionNotMetError L) :=
  retryCond_false_all (fun _ => L) cond (fun _ => hc) R a

theorem retryCond_first_true {α : Type} (fetch : Nat → List α) (cond : List α → Bool)
    {a : Nat} (h : cond (fetch a) = true) (R : Nat) :
    retryCond fetch cond R a = (0, .ok (fetch a)) := by
  cases R with
  | zero => simp [retryCond, h]
  | succ n => simp [retryCond, h]

/-! Auth Cache lemmas. -/

theorem runStat_cache_hit (tok m : Nat) :
    runStat tok true ⟨some tok, m⟩ = (⟨some tok, m⟩, true) := by
  simp [runStat, ensureAuthed]

theorem runStat_cache_miss_valid (tok m : Nat) :
    runStat tok true ⟨none, m⟩ = (⟨some tok, m + 1⟩, true) := by
  simp [runStat, ensureAuthed]

theorem runStat_corrupt (tok bad m : Nat) (h : bad ≠ tok) :
    runStat tok true ⟨some bad, m⟩ = (⟨some tok, m + 2⟩, true) := by
  simp [runStat, ensureAuthed, h]

theorem runStats_cached (tok m : Nat) :
    ∀ n, runStats tok true n ⟨some tok, m⟩ = (⟨some tok, m⟩, true) := by
  intro n
  induction n with
  | zero => rfl
  | succ n ih => simp [runStats, runStat_cache_hit, ih]

theorem runStats_fresh (tok N : Nat) (h : 1 ≤ N) :
    runStats tok true N ⟨none, 0⟩ = (⟨some tok, 1⟩, true) := by
  cases N with
  | zero => omega
  | succ n =>
      simp [runStats, runStat_cache_miss_valid, runStats_cached]

/-! Segmented-upload lemmas. -/

theorem str_append_left_injective (a : String) : Function.Injective (fun s => a ++ s) :=
  fun _ _ h => str_append_cancel_left h

theorem segmentContainerName_ne (c : String) : segmentContainerName c ≠ c := by
  intro h
  have hlen := congrArg String.length h
  rw [segmentContainerName, String.length_append] at hlen
  have h10 : (".segments_" : String).length = 10 := by decide
  omega

theorem chunksOf_ne_nil (S : Nat) {l : Bytes} (h : l ≠ []) : chunksOf S l ≠ [] := by
  cases l with
  | nil => exact absurd rfl h
  | cons x xs => simp [chunksOf]

theorem akeys_segmentPairs (obj : String) (segs : List Bytes) :
    akeys (segmentPairs obj segs) =
      (List.range segs.length).map (fun i => segmentObjectName obj i) := by
  simp only [akeys, segmentPairs, List.map_map]
  rw [show (Prod.fst ∘ fun e : Nat × Bytes =>
    (segmentObjectName obj e.1, ObjData.plain e.2)) =
    ((fun i => segmentObjectName obj i) ∘ Prod.fst) from rfl]
  rw [← List.map_map, List.enum_map_fst]

theorem nodup_segKeys (obj : String) (n : Nat) (h : ((List.range n).map Nat.repr).Nodup) :
    ((List.range n).map (fun i => segmentObjectName obj i)).Nodup := by
  have heq : (fun i => segmentObjectName obj i) = (fun s => (obj ++ "/") ++ s) ∘ Nat.repr := by
    funext i
    rfl
  rw [heq, ← List.map_map]
  exact List.Nodup.map (str_append_left_injective (obj ++ "/")) h

theorem filterMap_akeys_alookup {γ : Type} (objs : ObjList) (g : ObjData → Option γ)
    (hnd : (akeys objs).Nodup) :
    (akeys objs).filterMap (fun k => (alookup objs k).bind g) =
      objs.filterMap (fun e => g e.2) := by
  induction objs with
  | nil => rfl
  | cons e rest ih =>
      have hnd2 := hnd
      rw [show akeys (e :: rest) = e.1 :: akeys rest from rfl, List.nodup_cons] at hnd2
      have htail : (akeys rest).filterMap (fun k => (alookup (e :: rest) k).bind g) =
          (akeys rest).filterMap (fun k => (alookup rest k).bind g) := by
        apply List.filterMap_congr
        intro k hk
        have hke : e.1 ≠ k := by
          intro hh
          apply hnd2.1
          rw [hh]
          exact hk
        simp [alookup, hke]
      have h2 : ((alookup (e :: rest) e.1).bind g) = g e.2 := by
        simp [alookup]
      show (e.1 :: akeys rest).filterMap (fun k => (alookup (e :: rest) k).bind g) =
        (e :: rest).filterMap (fun x => g x.2)
      rw [List.filterMap_cons, List.filterMap_cons, h2, htail, ih hnd2.2]

theorem filterMap_segmentPairs (obj : String) (segs : List Bytes) :
    (segmentPairs obj segs).filterMap (fun e =>
      match e.2 with
      | ObjData.plain d => some d
      | _ => none) = segs := by
  simp only [segmentPairs, List.filterMap_map]
  rw [show ((fun e : String × ObjData =>
      match e.2 with
      | ObjData.plain d => some d
      | _ => none) ∘ (fun e : Nat × Bytes =>
      (segmentObjectName obj e.1, ObjData.plain e.2))) =
    (some ∘ (Prod.snd : Nat × Bytes → Bytes)) from rfl]
  rw [List.filterMap_eq_map, List.enum_map_snd]

theorem getObject_putObject_self (st : ObjStore) (c k : String) (v : ObjData) :
    getObject (putObject st c k v) c k = some v := by
  simp [getObject, getContainer_putObject_self, alookup_aset_self]

theorem getObject_putObject_ne_key (st : ObjStore) (c : String) {k k' : String} (v : ObjData)
    (h : k' ≠ k) : getObject (putObject st c k v) c k' = getObject st c k' := by
  cases hc : getContainer st c with
  | none => simp [getObject, getContainer_putObject_self, hc, alookup, Ne.symm h]
  | some objs => simp [getObject, getContainer_putObject_self, hc, alookup_aset_ne _ _ h]

theorem upload_large_big (st : ObjStore) (c obj : String) (data : Bytes) (S : Nat)
    (h : S < data.length) :
    upload_large st c obj data S =
      putObject (putObjects st (segmentContainerName c)
          (segmentPairs obj (chunksOf S data)))
        c obj (.slo (segmentContainerName c) obj) := by
  simp [upload_large, Nat.not_le.mpr h]

theorem segmentPairs_length (obj : String) (segs : List Bytes) :
    (segmentPairs obj segs).length = segs.length := by
  simp [segmentPairs, List.enum_length]

theorem upload_segcontainer (st : ObjStore) (c obj : String) (data : Bytes) (S : Nat)
    (hbig : S < data.length)
    (hfresh : getContainer st (segmentContainerName c) = none)
    (hnd : (akeys (segmentPairs obj (chunksOf S data))).Nodup) :
    getContainer (upload_large st c obj data S) (segmentContainerName c) =
      some (segmentPairs obj (chunksOf S data)) := by
  have hgd : (getContainer st (segmentContainerName c)).getD [] = [] := by
    rw [hfresh]
    rfl
  have hf : ∀ k ∈ akeys (segmentPairs obj (chunksOf S data)),
      alookup ((getContainer st (segmentContainerName c)).getD []) k = none := by
    intro k _
    rw [hgd]
    rfl
  have hchne : chunksOf S data ≠ [] := chunksOf_ne_nil S (by
    intro hd
    rw [hd] at hbig
    simp at hbig)
  have hne2 : segmentPairs obj (chunksOf S data) ≠ [] := by
    intro hcontra
    apply hchne
    have hl := congrArg List.length hcontra
    rw [segmentPairs_length] at hl
    exact List.length_eq_zero.mp hl
  rw [upload_large_big st c obj data S hbig,
    getContainer_putObject_ne _ _ _ (segmentContainerName_ne c),
    getContainer_putObjects_fresh_some _ _ _ hnd hf hne2, hgd, List.nil_append]

theorem upload_segcount (st : ObjStore) (c obj : String) (data : Bytes) (S : Nat)
    (hbig : S < data.length)
    (hfresh : getContainer st (segmentContainerName c) = none)
    (hnd : (akeys (segmentPairs obj (chunksOf S data))).Nodup) :
    segmentObjectCount (upload_large st c obj data S) c = (chunksOf S data).length := by
  rw [segmentObjectCount, upload_segcontainer st c obj data S hbig hfresh hnd,
    Option.getD_some, segmentPairs_length]

theorem upload_logical_manifest (st : ObjStore) (c obj : String) (data : Bytes) (S : Nat)
    (hbig : S < data.length) :
    getObject (upload_large st c obj data S) c obj =
      some (.slo (segmentContainerName c) obj) := by
  rw [upload_large_big st c obj data S hbig]
  exact getObject_putObject_self _ _ _ _

theorem upload_download (st : ObjStore) (c obj : String) (data : Bytes) (S : Nat)
    (hbig : S < data.length)
    (hfresh : getContainer st (segmentContainerName c) = none)
    (hnd : (akeys (segmentPairs obj (chunksOf S data))).Nodup) :
    downloadLogical (upload_large st c obj data S) c obj = some data := by
  have hget := upload_logical_manifest st c obj data S hbig
  have hsegcont := upload_segcontainer st c obj data S hbig hfresh hnd
  have hlist : listKeysUnder (upload_large st c obj data S) (segmentContainerName c) obj =
      akeys (segmentPairs obj (chunksOf S data)) := by
    rw [listKeysUnder, allKeys, hsegcont, Option.getD_some]
    apply List.filter_eq_self.mpr
    intro k hk
    rw [akeys_segmentPairs] at hk
    rcases List.mem_map.mp hk with ⟨i, _, rfl⟩
    exact strHasPfx_keyUnder obj (Nat.repr i)
  have hcongr : ∀ k ∈ akeys (segmentPairs obj (chunksOf S data)),
      (match getObject (upload_large st c obj data S) (segmentContainerName c) k with
        | some (.plain d) => some d
        | _ => none) =
      (alookup (segmentPairs obj (chunksOf S data)) k).bind (fun v =>
        match v with
        | ObjData.plain d => some d
        | _ => none) := by
    intro k _
    rw [getObject, hsegcont, Option.some_bind]
    cases alookup (segmentPairs obj (chunksOf S data)) k with
    | none => rfl
    | some v => cases v <;> rfl
  simp only [downloadLogical, hget]
  rw [hlist, List.filterMap_congr hcongr,
    filterMap_akeys_alookup _ _ hnd, filterMap_segmentPairs, chunksOf_flatten]

/-! Key-membership lemmas for the general segment-naming theorem. -/

theorem mem_akeys_aset {β : Type} (l : List (String × β)) (k m : String) (v : β) :
    m ∈ akeys (aset l k v) ↔ m ∈ akeys l ∨ m = k := by
  induction l with
  | nil => simp [aset, akeys]
  | cons e rest ih =>
      by_cases he : e.1 = k
      · subst he
        simp [aset, akeys]
        tauto
      · rw [show aset (e :: rest) k v = e :: aset rest k v by simp [aset, he]]
        rw [show akeys (e :: aset rest k v) = e.1 :: akeys (aset rest k v) from rfl,
          show akeys (e :: rest) = e.1 :: akeys rest from rfl]
        simp only [List.mem_cons, ih]
        tauto

theorem mem_allKeys_putObject (st : ObjStore) (c k m : String) (v : ObjData) :
    m ∈ allKeys (putObject st c k v) c ↔ m ∈ allKeys st c ∨ m = k := by
  rw [allKeys, getContainer_putObject_self, Option.getD_some, mem_akeys_aset]
  rfl

theorem mem_allKeys_putObjects (pairs : ObjList) (st : ObjStore) (c m : String) :
    m ∈ allKeys (putObjects st c pairs) c ↔ m ∈ allKeys st c ∨ m ∈ akeys pairs := by
  induction pairs generalizing st with
  | nil => simp [putObjects, akeys]
  | cons e rest ih =>
      rw [putObjects_cons, ih, mem_allKeys_putObject]
      rw [show akeys (e :: rest) = e.1 :: akeys rest from rfl]
      simp only [List.mem_cons]
      tauto

theorem getContainer_putObjects_isSome (pairs : ObjList) (st : ObjStore) (c : String)
    (h : (getContainer st c).isSome = true ∨ pairs ≠ []) :
    (getContainer (putObjects st c pairs) c).isSome = true := by
  induction pairs generalizing st with
  | nil =>
      rcases h with h | h
      · exact h
      · exact absurd rfl h
  | cons e rest ih =>
      rw [putObjects_cons]
      apply ih
      left
      rw [getContainer_putObject_self]
      rfl

/-! Claim theorems: authentication caching and bounded re-authentication. -/

/-- Claim C1: for a tenant with no prior Auth Cache entry, exactly one
authentication call is made across N consecutive operations (N at least 1),
all of which succeed; corrupting the cached token afterwards makes the
next single operation perform exactly two further authentication calls
(the count goes from 1 to 3) and still succeed. -/
theorem claim_C1_auth_caching (tok bad N : Nat) (hN : 1 ≤ N) (hbad : bad ≠ tok) :
    runStats tok true N ⟨none, 0⟩ = (⟨some tok, 1⟩, true) ∧
    runStat tok true ⟨some bad, 1⟩ = (⟨some tok, 3⟩, true) :=
  ⟨runStats_fresh tok N hN, by rw [runStat_corrupt tok bad 1 hbad]⟩

/-- Witness for C1 at tok = 0, bad = 1, N = 3. -/
theorem claim_C1_auth_caching_witness :
    runStats 0 true 3 ⟨none, 0⟩ = (⟨some 0, 1⟩, true) ∧
    runStat 0 true ⟨some 1, 1⟩ = (⟨some 0, 3⟩, true) :=
  claim_C1_auth_caching 0 1 3 (by decide) (by decide)

/-- Claim C4: a condition that is false on every attempt makes a retried
listing perform exactly `num_retries` backoff sleeps and then fail with
ConditionNotMetError (carrying the last observed result); a condition
satisfied by the true remote state succeeds immediately and returns
exactly that result set. -/
theorem claim_C4_condition_retries (fetch : Nat → List Nat) (cond : List Nat → Bool)
    (L : List Nat) (R : Nat) :
    ((∀ i, cond (fetch i) = false) →
      retryCond fetch cond R 0 = (R, .conditionNotMetError (fetch R))) ∧
    (cond L = true → retryCond (fun _ => L) cond R 0 = (0, .ok L)) := by
  constructor
  · intro h
    have hr := retryCond_false_all fetch cond h R 0
    simpa using hr
  · intro h
    exact retryCond_first_true (fun _ => L) cond h R

/-- Witness for C4: an always-false condition sleeps exactly 3 times out
of 3 retries and errors; a satisfiable condition returns the listing. -/
theorem claim_C4_condition_retries_witness :
    retryCond (fun _ => ([] : List Nat)) (fun l => l.length == 2) 3 0 =
      (3, .conditionNotMetError []) ∧
    retryCond (fun _ => [5, 6]) (fun l => l.length == 2) 3 0 = (0, .ok [5, 6]) :=
  ⟨(claim_C4_condition_retries (fun _ => []) (fun l => l.length == 2) [] 3).1
      (fun _ => by decide),
   (claim_C4_condition_retries (fun _ => [5, 6]) (fun l => l.length == 2) [5, 6] 3).2
      (by decide)⟩

/-- Claim C5: with credentials rejected on every attempt and no cache
entry, an operation makes exactly 2 authentication attempts — the fixed
design bound — and then raises AuthenticationError with no backoff
sleeps; and the bounded re-auth path does not consume condition retry
attempts: with a corrupted cache entry and valid credentials, an
always-false condition still performs its full `num_retries` sleeps
while exactly 2 authentication calls occur. -/
theorem claim_C5_bounded_reauth (tok bad : Nat) (L : List Nat) (cond : List Nat → Bool)
    (R : Nat) (hbad : bad ≠ tok) (hcond : cond L = false) :
    runList tok false L cond R ⟨none, 0⟩ = (⟨none, 2⟩, 0, .authenticationError) ∧
    runList tok true L cond R ⟨some bad, 0⟩ =
      (⟨some tok, 2⟩, R, .conditionNotMetError L) := by
  constructor
  · simp [runList, ensureAuthed]
  · simp [runList, ensureAuthed, hbad, retryCond_const_false L cond hcond R 0]

/-- Witness for C5 at tok = 0, bad = 1, an empty listing, an always-false
condition and 2 retries. -/
theorem claim_C5_bounded_reauth_witness :
    runList 0 false [] (fun _ => false) 2 ⟨none, 0⟩ =
      (⟨none, 2⟩, 0, .authenticationError) ∧
    runList 0 true [] (fun _ => false) 2 ⟨some 1, 0⟩ =
      (⟨some 0, 2⟩, 2, .conditionNotMetError []) :=
  claim_C5_bounded_reauth 0 1 [] (fun _ => false) 2 (by decide) rfl

/-! Claim theorems: segmented upload. -/

/-- Claim C2 (amended): uploading a payload of size `4*S + 100` with
segment size `S` — where `S ≥ 100`, so that `ceil(size/S) = 5`; for
smaller `S` the engine produces `ceil(size/S) > 5` segments — produces
exactly 5 segment objects in the hidden segment container plus one
manifest object at the logical path, and downloading the logical path
returns exactly the original bytes. -/
theorem claim_C2_segmentation_roundtrip (st : ObjStore) (c obj : String) (data : Bytes)
    (S : Nat) (hS : 100 ≤ S) (hlen : data.length = 4 * S + 100)
    (hfresh : getContainer st (segmentContainerName c) = none) :
    segmentObjectCount (upload_large st c obj data S) c = 5 ∧
    getObject (upload_large st c obj data S) c obj =
      some (.slo (segmentContainerName c) obj) ∧
    downloadLogical (upload_large st c obj data S) c obj = some data := by
  have hbig : S < data.length := by omega
  have hch5 : (chunksOf S data).length = 5 := by
    rw [chunksOf_length S (by omega), hlen]
    have h2 : 4 * S + 100 + S - 1 = 99 + S * 5 := by omega
    rw [h2, Nat.add_mul_div_left _ _ (by omega : 0 < S),
      Nat.div_eq_of_lt (by omega : 99 < S)]
  have hnd : (akeys (segmentPairs obj (chunksOf S data))).Nodup := by
    rw [akeys_segmentPairs, hch5]
    exact nodup_segKeys obj 5 (by decide)
  refine ⟨?_, upload_logical_manifest st c obj data S hbig,
    upload_download st c obj data S hbig hfresh hnd⟩
  rw [upload_segcount st c obj data S hbig hfresh hnd, hch5]

/-- Witness for C2 at S = 100 and a 500-byte payload in a fresh store. -/
theorem claim_C2_segmentation_roundtrip_witness :
    segmentObjectCount
      (upload_large emptyStore "c" "o" (List.replicate 500 7) 100) "c" = 5 ∧
    getObject (upload_large emptyStore "c" "o" (List.replicate 500 7) 100) "c" "o" =
      some (.slo (segmentContainerName "c") "o") ∧
    downloadLogical (upload_large emptyStore "c" "o" (List.replicate 500 7) 100) "c" "o" =
      some (List.replicate 500 7) :=
  claim_C2_segmentation_roundtrip emptyStore "c" "o" (List.replicate 500 7) 100
    (by decide) (by rw [List.length_replicate]) rfl

/-- Counterexample for C2 as frozen: with S = 50 the payload
`4*S + 100 = 300` splits into ceil(300/50) = 6 segments, not 5, so the
claim's unconditional count of exactly 5 segment objects fails. -/
theorem claim_C2_counterexample :
    (List.replicate 300 0).length = 4 * 50 + 100 ∧
    segmentObjectCount
      (upload_large emptyStore "c" "o" (List.replicate 300 0) 50) "c" ≠ 5 := by
  constructor
  · rw [List.length_replicate]
  · have hbig : 50 < (List.replicate 300 (0 : Nat)).length := by
      rw [List.length_replicate]
      omega
    have hfresh : getContainer emptyStore (segmentContainerName "c") = none := rfl
    have hch : (chunksOf 50 (List.replicate 300 (0 : Nat))).length = 6 := by
      rw [chunksOf_length 50 (by omega), List.length_replicate]
    have hnd : (akeys (segmentPairs "o" (chunksOf 50 (List.replicate 300 0)))).Nodup := by
      rw [akeys_segmentPairs, hch]
      exact nodup_segKeys "o" 6 (by decide)
    rw [upload_segcount emptyStore "c" "o" _ 50 hbig hfresh hnd, hch]
    decide

/-- Claim C7 (amended): for every segmented upload into container `c`
(payload bigger than the segment size, fresh segment container), the
hidden segment container is named `.segments_<container>` — prepended
marker, not the `<container>_segments` suffix form the claim states —
it exists after the upload, and the keys inside it are exactly
`<logical-object-name>/<0-based-index>` for the indices of the produced
segments. -/
theorem claim_C7_segment_naming (st : ObjStore) (c obj : String) (data : Bytes) (S : Nat)
    (hbig : S < data.length)
    (hfresh : getContainer st (segmentContainerName c) = none) :
    segmentContainerName c = ".segments_" ++ c ∧
    (getContainer (upload_large st c obj data S) (segmentContainerName c)).isSome = true ∧
    (∀ m, m ∈ allKeys (upload_large st c obj data S) (segmentContainerName c) ↔
      ∃ i, i < (chunksOf S data).length ∧ m = obj ++ "/" ++ Nat.repr i) := by
  have hchne : chunksOf S data ≠ [] := chunksOf_ne_nil S (by
    intro hd
    rw [hd] at hbig
    simp at hbig)
  have hpne : segmentPairs obj (chunksOf S data) ≠ [] := by
    intro hcontra
    apply hchne
    have hl := congrArg List.length hcontra
    rw [segmentPairs_length] at hl
    exact List.length_eq_zero.mp hl
  refine ⟨rfl, ?_, ?_⟩
  · rw [upload_large_big st c obj data S hbig,
      getContainer_putObject_ne _ _ _ (segmentContainerName_ne c)]
    exact getContainer_putObjects_isSome _ _ _ (Or.inr hpne)
  · intro m
    rw [upload_large_big st c obj data S hbig]
    rw [show allKeys (putObject (putObjects st (segmentContainerName c)
        (segmentPairs obj (chunksOf S data))) c obj
        (.slo (segmentContainerName c) obj)) (segmentContainerName c) =
      allKeys (putObjects st (segmentContainerName c)
        (segmentPairs obj (chunksOf S data))) (segmentContainerName c) by
        rw [allKeys, allKeys, getContainer_putObject_ne _ _ _ (segmentContainerName_ne c)]]
    rw [mem_allKeys_putObjects]
    rw [show allKeys st (segmentContainerName c) = [] by rw [allKeys, hfresh]; rfl]
    rw [akeys_segmentPairs]
    simp only [List.not_mem_nil, false_or, List.mem_map, List.mem_range]
    constructor
    · rintro ⟨i, hi, rfl⟩
      exact ⟨i, hi, rfl⟩
    · rintro ⟨i, hi, rfl⟩
      exact ⟨i, hi, rfl⟩

/-- Witness for C7 (amended) at a 2-byte payload with segment size 1. -/
theorem claim_C7_segment_naming_witness :
    segmentContainerName "c" = ".segments_" ++ "c" ∧
    (getContainer (upload_large emptyStore "c" "o" [7, 7] 1)
      (segmentContainerName "c")).isSome = true ∧
    (∀ m, m ∈ allKeys (upload_large emptyStore "c" "o" [7, 7] 1)
        (segmentContainerName "c") ↔
      ∃ i, i < (chunksOf 1 [7, 7]).length ∧ m = "o" ++ "/" ++ Nat.repr i) :=
  claim_C7_segment_naming emptyStore "c" "o" [7, 7] 1 (by decide) rfl

/-- Counterexample for C7 as frozen: after a segmented upload into
container `c` (two segment objects are present), no container named
`c_segments` exists; the segments live under `.segments_c` instead. -/
theorem claim_C7_counterexample :
    segmentObjectCount (upload_large emptyStore "c" "o" [7, 7] 1) "c" = 2 ∧
    getContainer (upload_large emptyStore "c" "o" [7, 7] 1) "c_segments" = none ∧
    getContainer (upload_large emptyStore "c" "o" [7, 7] 1) ".segments_c" ≠ none := by
  have hbig : 1 < ([7, 7] : Bytes).length := by decide
  have hfresh : getContainer emptyStore (segmentContainerName "c") = none := rfl
  have hch : (chunksOf 1 [7, 7]).length = 2 := by
    rw [chunksOf_length 1 (by omega)]
    decide
  have hnd : (akeys (segmentPairs "o" (chunksOf 1 [7, 7]))).Nodup := by
    rw [akeys_segmentPairs, hch]
    exact nodup_segKeys "o" 2 (by decide)
  refine ⟨?_, ?_, ?_⟩
  · rw [upload_segcount emptyStore "c" "o" [7, 7] 1 hbig hfresh hnd, hch]
  · rw [upload_large_big emptyStore "c" "o" [7, 7] 1 hbig,
      getContainer_putObject_ne _ _ _ (by decide : ("c_segments" : String) ≠ "c"),
      getContainer_putObjects_ne _ _
        (by decide : ("c_segments" : String) ≠ segmentContainerName "c")]
    rfl
  · have hname : (".segments_c" : String) = segmentContainerName "c" := by decide
    rw [hname, upload_segcontainer emptyStore "c" "o" [7, 7] 1 hbig hfresh hnd]
    simp

/-! Claim theorem: segment-container filtering at the tenant root. -/

/-- Claim C6: listing a tenant root with segment containers hidden (the
default) excludes every container matching the `.segments_` naming
convention — in particular the name the Segmented Upload Engine gives a
segment container matches it — while ordinary containers remain; with
`ignore_segment_containers = False` every container, segment containers
included, is listed. -/
theorem claim_C6_tenant_root_filter (st : ObjStore) (c name : String) :
    isSegmentContainer (segmentContainerName c) = true ∧
    (isSegmentContainer name = true → name ∉ listTenantRoot st true) ∧
    (name ∈ akeys st.containers → isSegmentContainer name = false →
      name ∈ listTenantRoot st true) ∧
    (name ∈ akeys st.containers → name ∈ listTenantRoot st false) := by
  refine ⟨strHasPfx_append _ _, ?_, ?_, ?_⟩
  · intro h hmem
    simp [listTenantRoot, List.mem_filter, h] at hmem
  · intro hmem h
    simp [listTenantRoot, List.mem_filter, hmem, h]
  · intro hmem
    simpa [listTenantRoot] using hmem

/-! Tree-sync lemmas. -/

theorem getContainer_setContainer_self (st : ObjStore) (c : String) (objs : ObjList) :
    getContainer (setContainer st c objs) c = some objs :=
  alookup_aset_self _ _ _

theorem alookup_aremove_ne {β : Type} (l : List (String × β)) {key k : String}
    (h : k ≠ key) : alookup (aremove l key) k = alookup l k := by
  rw [aremove, alookup_filter_key l (fun s => !(s == key)) k]
  simp [h]

theorem akeys_aremove {β : Type} (l : List (String × β)) (key : String) :
    akeys (aremove l key) = (akeys l).filter (fun s => !(s == key)) := by
  rw [aremove]
  exact akeys_filter_key l (fun s => !(s == key))

theorem listEq_self (xs : List String) : listEq xs xs = true := by
  simp [listEq, List.all_eq_true]

theorem keyUnder_injective (pfx : String) : Function.Injective (fun r => keyUnder pfx r) :=
  fun _ _ h => keyUnder_inj h

theorem akeys_treePairs (pfx : String) (tree : LocalTree) :
    akeys (treePairs pfx tree) = (tree.map Prod.fst).map (fun r => keyUnder pfx r) := by
  simp only [akeys, treePairs, List.map_map]
  rfl

theorem uploadTree_unfold (st : ObjStore) (c pfx : String) (tree : LocalTree) :
    uploadTree st c pfx tree true =
      putObject (putObjects st c (treePairs pfx tree)) c (manifestKey pfx)
        (.datamanifest (tree.map Prod.fst ++ [DATA_MANIFEST_FILE_NAME])) := rfl

theorem treePairs_keys_nodup (pfx : String) (tree : LocalTree)
    (hnd : (tree.map Prod.fst).Nodup) : (akeys (treePairs pfx tree)).Nodup := by
  rw [akeys_treePairs]
  exact List.Nodup.map (keyUnder_injective pfx) hnd

theorem manifestKey_fresh (pfx : String) (tree : LocalTree)
    (hdm : DATA_MANIFEST_FILE_NAME ∉ tree.map Prod.fst) :
    alookup (treePairs pfx tree) (manifestKey pfx) = none := by
  rw [alookup_none_iff, akeys_treePairs]
  intro hmem
  rcases List.mem_map.mp hmem with ⟨r, hr, hkeq⟩
  apply hdm
  rw [← keyUnder_inj hkeq]
  exact hr

theorem uploadTree_container (st : ObjStore) (c pfx : String) (tree : LocalTree)
    (hnd : (tree.map Prod.fst).Nodup)
    (hdm : DATA_MANIFEST_FILE_NAME ∉ tree.map Prod.fst)
    (hfresh : getContainer st c = none) :
    getContainer (uploadTree st c pfx tree true) c =
      some (treePairs pfx tree ++ [(manifestKey pfx,
        .datamanifest (tree.map Prod.fst ++ [DATA_MANIFEST_FILE_NAME]))]) := by
  have hndk := treePairs_keys_nodup pfx tree hnd
  have hf : ∀ k ∈ akeys (treePairs pfx tree),
      alookup ((getContainer st c).getD []) k = none := by
    intro k _
    rw [hfresh]
    rfl
  have hgd : (getContainer (putObjects st c (treePairs pfx tree)) c).getD [] =
      treePairs pfx tree := by
    rw [getContainer_putObjects_fresh _ _ _ hndk hf, hfresh]
    rfl
  rw [uploadTree_unfold, getContainer_putObject_self, hgd,
    aset_fresh _ _ _ (manifestKey_fresh pfx tree hdm)]

theorem uploadTree_keys_nodup (pfx : String) (tree : LocalTree)
    (hnd : (tree.map Prod.fst).Nodup)
    (hdm : DATA_MANIFEST_FILE_NAME ∉ tree.map Prod.fst) :
    (akeys (treePairs pfx tree ++ [(manifestKey pfx,
      ObjData.datamanifest (tree.map Prod.fst ++ [DATA_MANIFEST_FILE_NAME]))])).Nodup := by
  rw [akeys_append]
  apply List.Nodup.append (treePairs_keys_nodup pfx tree hnd) (List.nodup_singleton _)
  have hnin : manifestKey pfx ∉ akeys (treePairs pfx tree) :=
    (alookup_none_iff _ _).mp (manifestKey_fresh pfx tree hdm)
  simp [List.disjoint_singleton]
  exact hnin

theorem uploadTree_allKeys (st : ObjStore) (c pfx : String) (tree : LocalTree)
    (hnd : (tree.map Prod.fst).Nodup)
    (hdm : DATA_MANIFEST_FILE_NAME ∉ tree.map Prod.fst)
    (hfresh : getContainer st c = none) :
    allKeys (uploadTree st c pfx tree true) c =
      (tree.map Prod.fst ++ [DATA_MANIFEST_FILE_NAME]).map (fun r => keyUnder pfx r) := by
  rw [allKeys, uploadTree_container st c pfx tree hnd hdm hfresh, Option.getD_some,
    akeys_append, akeys_treePairs, List.map_append]
  rfl

theorem uploadTree_listing (st : ObjStore) (c pfx : String) (tree : LocalTree)
    (hnd : (tree.map Prod.fst).Nodup)
    (hdm : DATA_MANIFEST_FILE_NAME ∉ tree.map Prod.fst)
    (hfresh : getContainer st c = none) :
    listKeysUnder (uploadTree st c pfx tree true) c pfx =
      (tree.map Prod.fst ++ [DATA_MANIFEST_FILE_NAME]).map (fun r => keyUnder pfx r) := by
  rw [listKeysUnder, uploadTree_allKeys st c pfx tree hnd hdm hfresh]
  apply List.filter_eq_self.mpr
  intro k hk
  rcases List.mem_map.mp hk with ⟨r, _, hr⟩
  rw [← hr]
  exact strHasPfx_keyUnder pfx r

theorem uploadTree_manifest_obj (st : ObjStore) (c pfx : String) (tree : LocalTree)
    (hnd : (tree.map Prod.fst).Nodup)
    (hdm : DATA_MANIFEST_FILE_NAME ∉ tree.map Prod.fst)
    (hfresh : getContainer st c = none) :
    getObject (uploadTree st c pfx tree true) c (manifestKey pfx) =
      some (.datamanifest (tree.map Prod.fst ++ [DATA_MANIFEST_FILE_NAME])) := by
  rw [getObject, uploadTree_container st c pfx tree hnd hdm hfresh, Option.some_bind,
    alookup_append_left_none _ _ _ (manifestKey_fresh pfx tree hdm)]
  simp [alookup]

theorem uploadTree_member_obj (st : ObjStore) (c pfx : String) (tree : LocalTree)
    (hnd : (tree.map Prod.fst).Nodup)
    (hdm : DATA_MANIFEST_FILE_NAME ∉ tree.map Prod.fst)
    (hfresh : getContainer st c = none)
    (rel : String) (entry : TreeEntry) (hmem : (rel, entry) ∈ tree) :
    getObject (uploadTree st c pfx tree true) c (keyUnder pfx rel) =
      some (entryObj entry) := by
  rw [getObject, uploadTree_container st c pfx tree hnd hdm hfresh, Option.some_bind]
  apply alookup_of_mem_nodup (uploadTree_keys_nodup pfx tree hnd hdm)
  apply List.mem_append_left
  exact List.mem_map.mpr ⟨(rel, entry), hmem, rfl⟩

/-! Claim theorems: manifest-based tree sync. -/

/-- Claim C8: after a tree upload with use_manifest enabled into a fresh
container (member paths distinct and none equal to the manifest name),
the DataManifest stored at the fixed manifest key enumerates, in upload
traversal order, exactly every uploaded relative path — regular files
and empty-directory markers alike — plus the manifest object's own
name; and the keys actually listed under the prefix are exactly those
paths resolved under the prefix, in the same order. -/
theorem claim_C8_manifest_contents (st : ObjStore) (c pfx : String) (tree : LocalTree)
    (hnd : (tree.map Prod.fst).Nodup)
    (hdm : DATA_MANIFEST_FILE_NAME ∉ tree.map Prod.fst)
    (hfresh : getContainer st c = none) :
    getObject (uploadTree st c pfx tree true) c (manifestKey pfx) =
      some (.datamanifest (tree.map Prod.fst ++ [DATA_MANIFEST_FILE_NAME])) ∧
    listKeysUnder (uploadTree st c pfx tree true) c pfx =
      (tree.map Prod.fst ++ [DATA_MANIFEST_FILE_NAME]).map (fun r => keyUnder pfx r) :=
  ⟨uploadTree_manifest_obj st c pfx tree hnd hdm hfresh,
   uploadTree_listing st c pfx tree hnd hdm hfresh⟩

/-- Witness for C8: a two-member tree (one file, one empty directory). -/
theorem claim_C8_manifest_contents_witness :
    getObject (uploadTree emptyStore "c" "t"
        [("a", .file [1]), ("d", .emptyDir)] true) "c" (manifestKey "t") =
      some (.datamanifest ([("a", TreeEntry.file [1]),
        ("d", TreeEntry.emptyDir)].map Prod.fst ++ [DATA_MANIFEST_FILE_NAME])) ∧
    listKeysUnder (uploadTree emptyStore "c" "t"
        [("a", .file [1]), ("d", .emptyDir)] true) "c" "t" =
      ([("a", TreeEntry.file [1]), ("d", TreeEntry.emptyDir)].map Prod.fst ++
        [DATA_MANIFEST_FILE_NAME]).map (fun r => keyUnder "t" r) :=
  claim_C8_manifest_contents emptyStore "c" "t" [("a", .file [1]), ("d", .emptyDir)]
    (by decide) (by decide) rfl

/-- Claim C3: for a tree uploaded with use_manifest into a fresh
container, an immediate manifest-verified download succeeds and yields
every member of the tree (each under its key with its exact body); after
one remote member is deleted out-of-band, a subsequent manifest-verified
download fails with ConditionNotMetError instead of silently producing a
partial tree. -/
theorem claim_C3_manifest_verified_download (st : ObjStore) (c pfx : String)
    (tree : LocalTree) (rel0 : String) (entry0 : TreeEntry) (n : Nat)
    (hnd : (tree.map Prod.fst).Nodup)
    (hdm : DATA_MANIFEST_FILE_NAME ∉ tree.map Prod.fst)
    (hfresh : getContainer st c = none)
    (hmem : (rel0, entry0) ∈ tree) :
    (∃ members, (downloadTree (uploadTree st c pfx tree true) c pfx n).2 =
        Except.ok members ∧
      ∀ rel entry, (rel, entry) ∈ tree →
        (keyUnder pfx rel, entryObj entry) ∈ members) ∧
    (downloadTree (delObject (uploadTree st c pfx tree true) c (keyUnder pfx rel0))
        c pfx n).2 = Except.error StorError.conditionNotMetError := by
  have hman := uploadTree_manifest_obj st c pfx tree hnd hdm hfresh
  have hlist := uploadTree_listing st c pfx tree hnd hdm hfresh
  have hcont1 := uploadTree_container st c pfx tree hnd hdm hfresh
  constructor
  · have hcondtrue : listEq
        (listKeysUnder (uploadTree st c pfx tree true) c pfx)
        ((tree.map Prod.fst ++ [DATA_MANIFEST_FILE_NAME]).map
          (fun r => keyUnder pfx r)) = true := by
      rw [hlist]
      exact listEq_self _
    simp only [downloadTree, hman,
      retryCond_first_true (fun _ => listKeysUnder (uploadTree st c pfx tree true) c pfx)
        (fun l => listEq l ((tree.map Prod.fst ++ [DATA_MANIFEST_FILE_NAME]).map
          (fun r => keyUnder pfx r))) hcondtrue n]
    refine ⟨_, rfl, ?_⟩
    intro rel entry hm
    apply List.mem_filterMap.mpr
    refine ⟨keyUnder pfx rel, ?_, ?_⟩
    · rw [hlist]
      exact List.mem_map.mpr ⟨rel,
        List.mem_append_left _ (List.mem_map.mpr ⟨(rel, entry), hm, rfl⟩), rfl⟩
    · rw [uploadTree_member_obj st c pfx tree hnd hdm hfresh rel entry hm]
      rfl
  · have hrel0 : rel0 ∈ tree.map Prod.fst :=
      List.mem_map.mpr ⟨(rel0, entry0), hmem, rfl⟩
    have hrel0dm : rel0 ≠ DATA_MANIFEST_FILE_NAME := by
      intro h
      apply hdm
      rw [← h]
      exact hrel0
    have hkey0mk : manifestKey pfx ≠ keyUnder pfx rel0 := by
      intro h
      exact hrel0dm (keyUnder_inj h).symm
    have hcont2 : getContainer
        (delObject (uploadTree st c pfx tree true) c (keyUnder pfx rel0)) c =
        some (aremove (treePairs pfx tree ++ [(manifestKey pfx,
          .datamanifest (tree.map Prod.fst ++ [DATA_MANIFEST_FILE_NAME]))])
          (keyUnder pfx rel0)) := by
      simp only [delObject, hcont1]
      exact getContainer_setContainer_self _ _ _
    have hman2 : getObject
        (delObject (uploadTree st c pfx tree true) c (keyUnder pfx rel0)) c
        (manifestKey pfx) =
        some (.datamanifest (tree.map Prod.fst ++ [DATA_MANIFEST_FILE_NAME])) := by
      rw [getObject, hcont2, Option.some_bind, alookup_aremove_ne _ hkey0mk]
      have h := uploadTree_manifest_obj st c pfx tree hnd hdm hfresh
      rw [getObject, hcont1, Option.some_bind] at h
      exact h
    have hkeys2 : akeys (treePairs pfx tree ++ [(manifestKey pfx,
        ObjData.datamanifest (tree.map Prod.fst ++ [DATA_MANIFEST_FILE_NAME]))]) =
        (tree.map Prod.fst ++ [DATA_MANIFEST_FILE_NAME]).map (fun r => keyUnder pfx r) := by
      have h := uploadTree_allKeys st c pfx tree hnd hdm hfresh
      rw [allKeys, hcont1, Option.getD_some] at h
      exact h
    have hlist2 : listKeysUnder
        (delObject (uploadTree st c pfx tree true) c (keyUnder pfx rel0)) c pfx =
        ((tree.map Prod.fst ++ [DATA_MANIFEST_FILE_NAME]).map
          (fun r => keyUnder pfx r)).filter (fun s => !(s == keyUnder pfx rel0)) := by
      rw [listKeysUnder, allKeys, hcont2, Option.getD_some, akeys_aremove, hkeys2]
      apply List.filter_eq_self.mpr
      intro k hk
      rcases List.mem_map.mp (List.mem_of_mem_filter hk) with ⟨r, _, hr⟩
      rw [← hr]
      exact strHasPfx_keyUnder pfx r
    have hcondfalse : listEq
        (listKeysUnder (delObject (uploadTree st c pfx tree true) c
          (keyUnder pfx rel0)) c pfx)
        ((tree.map Prod.fst ++ [DATA_MANIFEST_FILE_NAME]).map
          (fun r => keyUnder pfx r)) = false := by
      have hin : keyUnder pfx rel0 ∈
          (tree.map Prod.fst ++ [DATA_MANIFEST_FILE_NAME]).map (fun r => keyUnder pfx r) :=
        List.mem_map.mpr ⟨rel0, List.mem_append_left _ hrel0, rfl⟩
      have hout : keyUnder pfx rel0 ∉
          listKeysUnder (delObject (uploadTree st c pfx tree true) c
            (keyUnder pfx rel0)) c pfx := by
        rw [hlist2]
        intro hmem2
        have hq := List.of_mem_filter hmem2
        simp at hq
      rw [listEq]
      have hall : ((tree.map Prod.fst ++ [DATA_MANIFEST_FILE_NAME]).map
          (fun r => keyUnder pfx r)).all (fun y =>
            (listKeysUnder (delObject (uploadTree st c pfx tree true) c
              (keyUnder pfx rel0)) c pfx).contains y) = false := by
        apply List.all_eq_false.mpr
        refine ⟨keyUnder pfx rel0, hin, ?_⟩
        simp [hout]
      rw [hall, Bool.and_false]
    simp only [downloadTree, hman2,
      retryCond_const_false
        (listKeysUnder (delObject (uploadTree st c pfx tree true) c
          (keyUnder pfx rel0)) c pfx)
        (fun l => listEq l ((tree.map Prod.fst ++ [DATA_MANIFEST_FILE_NAME]).map
          (fun r => keyUnder pfx r))) hcondfalse n 0]

theorem alookup_aremove_self {β : Type} (l : List (String × β)) (key : String) :
    alookup (aremove l key) key = none := by
  rw [aremove, alookup_filter_key l (fun s => !(s == key)) key]
  simp

theorem getContainer_setContainer_ne (st : ObjStore) {c c' : String} (objs : ObjList)
    (h : c' ≠ c) : getContainer (setContainer st c objs) c' = getContainer st c' :=
  alookup_aset_ne _ _ h

/-- Witness for C3: two members, the file member deleted out-of-band. -/
theorem claim_C3_manifest_verified_download_witness :
    (∃ members, (downloadTree (uploadTree emptyStore "c" "t"
        [("a", .file [1]), ("d", .emptyDir)] true) "c" "t" 1).2 =
        Except.ok members ∧
      ∀ rel entry, (rel, entry) ∈ [("a", TreeEntry.file [1]), ("d", TreeEntry.emptyDir)] →
        (keyUnder "t" rel, entryObj entry) ∈ members) ∧
    (downloadTree (delObject (uploadTree emptyStore "c" "t"
        [("a", .file [1]), ("d", .emptyDir)] true) "c" (keyUnder "t" "a"))
        "c" "t" 1).2 = Except.error StorError.conditionNotMetError :=
  claim_C3_manifest_verified_download emptyStore "c" "t"
    [("a", .file [1]), ("d", .emptyDir)] "a" (.file [1]) 1
    (by decide) (by decide) rfl (by decide)

/-! Claim theorems: remove_tree frame effect and path predicates. -/

/-- Claim C10: a remove_tree of a nested prefix deletes exactly the
objects whose keys lie under that prefix — any other object keeps its
exact body and stays listable — and keeps every container (the affected
one included); only a container-level remove_tree deletes the container,
after which listing it raises NotFoundError. -/
theorem claim_C10_remove_tree_frame (st : ObjStore) (c p k c' m : String) :
    (getObject (removeTree st c (some p)) c k =
      if strHasPfx (p ++ "/") k then none else getObject st c k) ∧
    (c' ≠ c → getContainer (removeTree st c (some p)) c' = getContainer st c') ∧
    ((getContainer st c).isSome = true →
      (getContainer (removeTree st c (some p)) c).isSome = true) ∧
    (strHasPfx (p ++ "/") m = false →
      (m ∈ allKeys (removeTree st c (some p)) c ↔ m ∈ allKeys st c)) ∧
    getContainer (removeTree st c none) c = none ∧
    listContainer (removeTree st c none) c = Except.error StorError.notFoundError := by
  have h5 : getContainer (removeTree st c none) c = none := by
    show alookup (aremove st.containers c) c = none
    exact alookup_aremove_self _ _
  refine ⟨?_, ?_, ?_, ?_, h5, ?_⟩
  · cases hc : getContainer st c with
    | none =>
        simp only [removeTree, hc]
        have hg : getObject st c k = none := by
          rw [getObject, hc]
          rfl
        rw [hg]
        cases hpk : strHasPfx (p ++ "/") k <;> simp
    | some objs =>
        simp only [removeTree, hc]
        rw [getObject, getContainer_setContainer_self, Option.some_bind,
          alookup_filter_key objs (fun s => !(strHasPfx (p ++ "/") s)) k,
          getObject, hc, Option.some_bind]
        cases hpk : strHasPfx (p ++ "/") k <;> simp [hpk]
  · intro h
    cases hc : getContainer st c with
    | none => simp only [removeTree, hc]
    | some objs =>
        simp only [removeTree, hc]
        exact getContainer_setContainer_ne st _ h
  · intro hsome
    cases hc : getContainer st c with
    | none =>
        rw [hc] at hsome
        simp at hsome
    | some objs =>
        simp only [removeTree, hc, getContainer_setContainer_self]
        rfl
  · intro hm
    cases hc : getContainer st c with
    | none => simp only [removeTree, hc]
    | some objs =>
        simp only [removeTree, hc]
        rw [allKeys, getContainer_setContainer_self, Option.getD_some,
          akeys_filter_key objs (fun s => !(strHasPfx (p ++ "/") s)),
          allKeys, hc, Option.getD_some]
        constructor
        · intro h
          exact (List.mem_filter.mp h).1
        · intro h
          exact List.mem_filter.mpr ⟨h, by simp [hm]⟩
  · rw [listContainer]
    simp only [h5]

/-- Witness for C10 on a store holding a nested file and a base file. -/
theorem claim_C10_remove_tree_frame_witness :
    (getObject (removeTree (putObjects emptyStore "c"
        [("my_dir/f1", .plain [1]), ("base", .plain [3])]) "c" (some "my_dir"))
        "c" "my_dir/f1" =
      if strHasPfx ("my_dir" ++ "/") "my_dir/f1" then none
      else getObject (putObjects emptyStore "c"
        [("my_dir/f1", .plain [1]), ("base", .plain [3])]) "c" "my_dir/f1") ∧
    (getContainer (removeTree (putObjects emptyStore "c"
        [("my_dir/f1", .plain [1]), ("base", .plain [3])]) "c" (some "my_dir"))
        "c").isSome = true ∧
    ("base" ∈ allKeys (removeTree (putObjects emptyStore "c"
        [("my_dir/f1", .plain [1]), ("base", .plain [3])]) "c" (some "my_dir")) "c" ↔
      "base" ∈ allKeys (putObjects emptyStore "c"
        [("my_dir/f1", .plain [1]), ("base", .plain [3])]) "c") ∧
    listContainer (removeTree (putObjects emptyStore "c"
        [("my_dir/f1", .plain [1]), ("base", .plain [3])]) "c" none) "c" =
      Except.error StorError.notFoundError :=
  ⟨(claim_C10_remove_tree_frame (putObjects emptyStore "c"
      [("my_dir/f1", .plain [1]), ("base", .plain [3])]) "c" "my_dir" "my_dir/f1"
      "x" "base").1,
   (claim_C10_remove_tree_frame (putObjects emptyStore "c"
      [("my_dir/f1", .plain [1]), ("base", .plain [3])]) "c" "my_dir" "my_dir/f1"
      "x" "base").2.2.1 (by decide),
   (claim_C10_remove_tree_frame (putObjects emptyStore "c"
      [("my_dir/f1", .plain [1]), ("base", .plain [3])]) "c" "my_dir" "my_dir/f1"
      "x" "base").2.2.2.1 (by decide),
   (claim_C10_remove_tree_frame (putObjects emptyStore "c"
      [("my_dir/f1", .plain [1]), ("base", .plain [3])]) "c" "my_dir" "my_dir/f1"
      "x" "base").2.2.2.2.2⟩

/-- Claim C9: on the object store, isdir at an object path holds exactly
when some object key extends the path by a further path component (no
directory-marker object needed); isdir at a container path holds exactly
when the container exists; a mere string prefix does not count (an
object `analysis.txt` does not make `analysis` a directory, while
`analysis/alignments/bam.bam` makes both `analysis` and
`analysis/alignments` directories with no marker present); and isdir and
isfile are never both true for the same path. -/
theorem claim_C9_isdir_semantics (st : ObjStore) (c key : String) (q : Option String) :
    (isdir st c (some key) = true ↔ ∃ suffix, keyUnder key suffix ∈ allKeys st c) ∧
    (isdir st c none = true ↔ (getContainer st c).isSome = true) ∧
    (¬(isdir st c q = true ∧ isfile st c q = true)) ∧
    (isdir (putObject emptyStore "c" "analysis.txt" (.plain [1])) "c"
        (some "analysis") = false ∧
      isfile (putObject emptyStore "c" "analysis.txt" (.plain [1])) "c"
        (some "analysis.txt") = true) ∧
    (isdir (putObject (putObject emptyStore "c" "analysis.txt" (.plain [1])) "c"
        "analysis/alignments/bam.bam" (.plain [2])) "c" (some "analysis") = true ∧
      isdir (putObject (putObject emptyStore "c" "analysis.txt" (.plain [1])) "c"
        "analysis/alignments/bam.bam" (.plain [2])) "c" (some "analysis/alignments") = true ∧
      isfile (putObject (putObject emptyStore "c" "analysis.txt" (.plain [1])) "c"
        "analysis/alignments/bam.bam" (.plain [2])) "c" (some "analysis") = false) := by
  refine ⟨?_, Iff.rfl, ?_, by decide, by decide⟩
  · constructor
    · intro h
      have hne : listKeysUnder st c key ≠ [] := by
        intro hnil
        rw [isdir, hnil] at h
        simp at h
      rcases List.exists_mem_of_ne_nil _ hne with ⟨x, hx⟩
      have hmem := List.mem_of_mem_filter hx
      have hpfx := List.of_mem_filter hx
      rcases (strHasPfx_iff (key ++ "/") x).mp hpfx with ⟨t, rfl⟩
      exact ⟨t, hmem⟩
    · rintro ⟨suffix, hmem⟩
      have hin : keyUnder key suffix ∈ listKeysUnder st c key :=
        List.mem_filter.mpr ⟨hmem, strHasPfx_keyUnder key suffix⟩
      have hne : listKeysUnder st c key ≠ [] := List.ne_nil_of_mem hin
      rw [isdir]
      simp [List.isEmpty_eq_false, hne]
  · rintro ⟨hd, hf⟩
    cases q with
    | none => simp [isfile] at hf
    | some k =>
        rw [isfile, hd] at hf
        simp at hf

/-- Witness for C9 at a concrete store, container and path. -/
theorem claim_C9_isdir_semantics_witness :
    (isdir emptyStore "c" (some "k") = true ↔
      ∃ suffix, keyUnder "k" suffix ∈ allKeys emptyStore "c") ∧
    (isdir emptyStore "c" none = true ↔ (getContainer emptyStore "c").isSome = true) ∧
    (¬(isdir emptyStore "c" (some "k") = true ∧ isfile emptyStore "c" (some "k") = true)) ∧
    (isdir (putObject emptyStore "c" "analysis.txt" (.plain [1])) "c"
        (some "analysis") = false ∧
      isfile (putObject emptyStore "c" "analysis.txt" (.plain [1])) "c"
        (some "analysis.txt") = true) ∧
    (isdir (putObject (putObject emptyStore "c" "analysis.txt" (.plain [1])) "c"
        "analysis/alignments/bam.bam" (.plain [2])) "c" (some "analysis") = true ∧
      isdir (putObject (putObject emptyStore "c" "analysis.txt" (.plain [1])) "c"
        "analysis/alignments/bam.bam" (.plain [2])) "c" (some "analysis/alignments") = true ∧
      isfile (putObject (putObject emptyStore "c" "analysis.txt" (.plain [1])) "c"
        "analysis/alignments/bam.bam" (.plain [2])) "c" (some "analysis") = false) :=
  claim_C9_isdir_semantics emptyStore "c" "k" (some "k")

/-- Witness for C6 on a store holding an ordinary container and a
segment container. -/
theorem claim_C6_tenant_root_filter_witness :
    isSegmentContainer (segmentContainerName "c") = true ∧
    ".segments_c" ∉ listTenantRoot ⟨[("c", []), (".segments_c", [])]⟩ true ∧
    "c" ∈ listTenantRoot ⟨[("c", []), (".segments_c", [])]⟩ true ∧
    ".segments_c" ∈ listTenantRoot ⟨[("c", []), (".segments_c", [])]⟩ false :=
  ⟨(claim_C6_tenant_root_filter ⟨[("c", []), (".segments_c", [])]⟩ "c" ".segments_c").1,
   (claim_C6_tenant_root_filter ⟨[("c", []), (".segments_c", [])]⟩ "c"
      ".segments_c").2.1 (by decide),
   (claim_C6_tenant_root_filter ⟨[("c", []), (".segments_c", [])]⟩ "c"
      "c").2.2.1 (by decide) (by decide),
   (claim_C6_tenant_root_filter ⟨[("c", []), (".segments_c", [])]⟩ "c"
      ".segments_c").2.2.2 (by decide)⟩
